import Mathlib

/-!
Verification of the binary-prime-engine repository (file
`src/binary_prime_engine_pro_en.py`, with the fixed-width encoder of
`src/binary_prime_engine_pro.py` where noted) against its natural-language
specification.  Python integers appearing in the claims are non-negative and
are modelled as `Nat`, except the cache capacity `max_size`, which the code
compares against `0` and which configuration may set negative: it is
modelled as `Int`.  Python floats (`avg_gap`, smoothing factor `0.1`) are
modelled as exact rationals `ℚ`; wall-clock fields (`total_time`,
`primes_per_second`) are time-dependent and are not modelled.
-/

namespace PrimeEngine

/-! ### Primality test (`BinaryPrimeEngine.is_prime_optimized`, pure core)

`small_primes` is the literal list from line 197 of the source.  `trialSmall`
is the `for p in small_primes` loop with its `break` on `p >= limit`;
`trialOdd` is the `while d < limit` loop starting at `d = 37`, stepping by 2,
written with a fuel argument (the fuel is chosen at the call site so that the
loop condition, not the fuel, terminates the loop).  Both return `true` when
a divisor is found (the code's early `return False`).  -/

def small_primes : List Nat := [3, 5, 7, 11, 13, 17, 19, 23, 29, 31]

def trialSmall (n limit : Nat) : List Nat → Bool
  | [] => false
  | p :: ps =>
    if limit ≤ p then false
    else if n % p = 0 then true
    else trialSmall n limit ps

def trialOdd (n limit : Nat) : Nat → Nat → Bool
  | 0, _ => false
  | fuel + 1, d =>
    if d < limit then
      if n % d = 0 then true else trialOdd n limit fuel (d + 2)
    else false

/-- The pure verdict of `is_prime_optimized` (lines 174-216): fast paths for
`n < 2`, `n = 2` and even `n`, then trial division below
`limit = int(math.sqrt(n)) + 1` (exact for the magnitudes involved, modelled
as `Nat.sqrt n + 1`) by the small odd primes and then by odd `d ≥ 37`.
Cache and composite-registry side effects are modelled separately by
`EngineState.is_prime_optimized`. -/
def is_prime_pure (n : Nat) : Bool :=
  if n < 2 then false
  else if n = 2 then true
  else if n % 2 = 0 then false
  else if trialSmall n (Nat.sqrt n + 1) small_primes then false
  else if trialOdd n (Nat.sqrt n + 1) (Nat.sqrt n + 1) 37 then false
  else true

/-- The reference primality predicate of the claim: `n ≥ 2` and no divisor
`d` with `2 ≤ d < n`. -/
def refPrime (n : Nat) : Bool :=
  decide (2 ≤ n ∧ ∀ d, d < n → 2 ≤ d → ¬ (d ∣ n))

theorem trialSmall_eq_true_iff (n limit : Nat) (l : List Nat)
    (hl : l.Pairwise (· ≤ ·)) :
    trialSmall n limit l = true ↔ ∃ p ∈ l, p < limit ∧ n % p = 0 := by
  induction l with
  | nil => simp [trialSmall]
  | cons p ps ih =>
    rcases List.pairwise_cons.mp hl with ⟨hle, hps⟩
    by_cases h1 : limit ≤ p
    · rw [trialSmall, if_pos h1]
      constructor
      · intro h; exact absurd h (by simp)
      · rintro ⟨q, hq, hqlt, _⟩
        rcases List.mem_cons.mp hq with rfl | hq'
        · omega
        · have := hle q hq'; omega
    · by_cases h2 : n % p = 0
      · rw [trialSmall, if_neg h1, if_pos h2]
        simp only [true_iff]
        exact ⟨p, List.mem_cons_self p ps, by omega, h2⟩
      · rw [trialSmall, if_neg h1, if_neg h2, ih hps]
        constructor
        · rintro ⟨q, hq, h⟩; exact ⟨q, List.mem_cons_of_mem _ hq, h⟩
        · rintro ⟨q, hq, h⟩
          rcases List.mem_cons.mp hq with rfl | hq'
          · exact absurd h.2 h2
          · exact ⟨q, hq', h⟩

theorem trialOdd_eq_true_iff (n limit : Nat) (fuel d : Nat)
    (hfuel : limit ≤ d + fuel) :
    trialOdd n limit fuel d = true ↔
      ∃ k, d + 2 * k < limit ∧ n % (d + 2 * k) = 0 := by
  induction fuel generalizing d with
  | zero =>
    rw [trialOdd]
    constructor
    · intro h; exact absurd h (by simp)
    · rintro ⟨k, hk, _⟩; omega
  | succ fuel ih =>
    by_cases hd : d < limit
    · by_cases hdvd : n % d = 0
      · rw [trialOdd, if_pos hd, if_pos hdvd]
        simp only [true_iff]
        exact ⟨0, by omega, by simpa using hdvd⟩
      · rw [trialOdd, if_pos hd, if_neg hdvd, ih (d + 2) (by omega)]
        constructor
        · rintro ⟨k, hk, h⟩
          exact ⟨k + 1, by omega, by rw [show d + 2 * (k + 1) = d + 2 + 2 * k by ring]; exact h⟩
        · rintro ⟨k, hk, h⟩
          match k with
          | 0 => exact absurd (by simpa using h) hdvd
          | k + 1 =>
            exact ⟨k, by omega, by rw [show d + 2 + 2 * k = d + 2 * (k + 1) by ring]; exact h⟩
    · rw [trialOdd, if_neg hd]
      constructor
      · intro h; exact absurd h (by simp)
      · rintro ⟨k, hk, _⟩; omega

/-- If an odd prime `q < Nat.sqrt n + 1` divides odd `n`, one of the two
trial-division loops reports a divisor. -/
theorem trial_found_of_prime_dvd (n q : Nat) (hq : Nat.Prime q)
    (hodd : q % 2 = 1) (hlt : q < Nat.sqrt n + 1) (hdvd : q ∣ n) :
    trialSmall n (Nat.sqrt n + 1) small_primes = true ∨
      trialOdd n (Nat.sqrt n + 1) (Nat.sqrt n + 1) 37 = true := by
  have hq2 : 2 ≤ q := hq.two_le
  have hmod : n % q = 0 := Nat.mod_eq_zero_of_dvd hdvd
  by_cases hsmall : q ≤ 31
  · left
    have hmem : q ∈ small_primes := by
      have h32 : ∀ r, r < 32 → Nat.Prime r → r % 2 = 1 → r ∈ small_primes := by decide
      exact h32 q (by omega) hq hodd
    exact (trialSmall_eq_true_iff n _ small_primes (by decide)).mpr ⟨q, hmem, hlt, hmod⟩
  · right
    have h37 : 37 ≤ q := by
      have hno : ∀ r, r < 37 → 31 < r → r % 2 = 1 → ¬ Nat.Prime r := by decide
      by_contra hcon
      exact hno q (by omega) (by omega) hodd hq
    obtain ⟨k, hk⟩ : ∃ k, q = 37 + 2 * k := ⟨(q - 37) / 2, by omega⟩
    refine (trialOdd_eq_true_iff n _ _ 37 (by omega)).mpr ⟨k, by omega, ?_⟩
    rw [← hk]; exact hmod

/-- Any divisor reported by either loop is a nontrivial divisor of `n`. -/
theorem dvd_of_trial_found (n : Nat) (hn : 2 ≤ n)
    (h : trialSmall n (Nat.sqrt n + 1) small_primes = true ∨
      trialOdd n (Nat.sqrt n + 1) (Nat.sqrt n + 1) 37 = true) :
    ∃ d, 2 ≤ d ∧ d < n ∧ d ∣ n := by
  have hlim : Nat.sqrt n + 1 ≤ n := by
    have := Nat.sqrt_lt_self (show 1 < n by omega); omega
  rcases h with h | h
  · obtain ⟨p, hp, hplt, hpdvd⟩ :=
      (trialSmall_eq_true_iff n (Nat.sqrt n + 1) small_primes (by decide)).mp h
    have hp3 : 3 ≤ p := by
      have : ∀ q ∈ small_primes, 3 ≤ q := by decide
      exact this p hp
    exact ⟨p, by omega, by omega, Nat.dvd_iff_mod_eq_zero.mpr hpdvd⟩
  · obtain ⟨k, hklt, hkdvd⟩ := (trialOdd_eq_true_iff n _ _ 37 (by omega)).mp h
    exact ⟨37 + 2 * k, by omega, by omega, Nat.dvd_iff_mod_eq_zero.mpr hkdvd⟩

/-- The pure trial-division verdict agrees with mathematical primality. -/
theorem is_prime_pure_iff (n : Nat) : is_prime_pure n = true ↔ Nat.Prime n := by
  by_cases h1 : n < 2
  · rw [is_prime_pure, if_pos h1]
    constructor
    · intro h; exact absurd h (by simp)
    · intro hp; have := hp.two_le; omega
  · by_cases h2 : n = 2
    · subst h2; rw [is_prime_pure, if_neg h1, if_pos rfl]
      exact ⟨fun _ => Nat.prime_two, fun _ => rfl⟩
    · by_cases h3 : n % 2 = 0
      · rw [is_prime_pure, if_neg h1, if_neg h2, if_pos h3]
        constructor
        · intro h; exact absurd h (by simp)
        · intro hp
          exfalso
          have h2dvd : 2 ∣ n := Nat.dvd_iff_mod_eq_zero.mpr h3
          rcases (Nat.Prime.eq_one_or_self_of_dvd hp 2 h2dvd) with h | h
          · omega
          · omega
      · rw [is_prime_pure, if_neg h1, if_neg h2, if_neg h3]
        have hn3 : 3 ≤ n := by omega
        by_cases hfound : trialSmall n (Nat.sqrt n + 1) small_primes = true ∨
            trialOdd n (Nat.sqrt n + 1) (Nat.sqrt n + 1) 37 = true
        · have hres : (if trialSmall n (Nat.sqrt n + 1) small_primes = true then false
              else if trialOdd n (Nat.sqrt n + 1) (Nat.sqrt n + 1) 37 = true then false
              else true) = false := by
            rcases hfound with h | h
            · rw [if_pos h]
            · by_cases hs : trialSmall n (Nat.sqrt n + 1) small_primes = true
              · rw [if_pos hs]
              · rw [if_neg hs, if_pos h]
          rw [hres]
          constructor
          · intro h; exact absurd h (by simp)
          · intro hp
            exfalso
            obtain ⟨d, hd2, hdlt, hddvd⟩ := dvd_of_trial_found n (by omega) hfound
            rcases Nat.Prime.eq_one_or_self_of_dvd hp d hddvd with h | h
            · omega
            · omega
        · push_neg at hfound
          obtain ⟨hs, ho⟩ := hfound
          rw [if_neg hs, if_neg ho]
          refine ⟨fun _ => ?_, fun _ => rfl⟩
          rw [Nat.prime_def_le_sqrt]
          refine ⟨by omega, fun m hm2 hmsqrt hmdvd => ?_⟩
          have hq := Nat.minFac_prime (n := m) (by omega)
          have hqdvd : m.minFac ∣ n := dvd_trans (Nat.minFac_dvd m) hmdvd
          have hqle : m.minFac ≤ m := Nat.minFac_le (by omega)
          have hqodd : m.minFac % 2 = 1 := by
            rcases Nat.even_or_odd m.minFac with he | hodd
            · obtain ⟨t, ht⟩ := he
              have h2d : (2 : Nat) ∣ m.minFac := ⟨t, by omega⟩
              have : (2 : Nat) ∣ n := dvd_trans h2d hqdvd
              have := Nat.mod_eq_zero_of_dvd this
              omega
            · exact Nat.odd_iff.mp hodd
          have : trialSmall n (Nat.sqrt n + 1) small_primes = true ∨
              trialOdd n (Nat.sqrt n + 1) (Nat.sqrt n + 1) 37 = true :=
            trial_found_of_prime_dvd n m.minFac hq hqodd (by omega) hqdvd
          rcases this with h | h
          · exact hs h
          · exact ho h

/-- `refPrime` agrees with mathematical primality. -/
theorem refPrime_iff (n : Nat) : refPrime n = true ↔ Nat.Prime n := by
  rw [refPrime, decide_eq_true_iff]
  constructor
  · rintro ⟨h2, hnd⟩
    rw [Nat.prime_def_lt]
    refine ⟨h2, fun m hm hmdvd => ?_⟩
    match m with
    | 0 => obtain ⟨t, ht⟩ := hmdvd; omega
    | 1 => rfl
    | m + 2 => exact absurd hmdvd (hnd (m + 2) hm (by omega))
  · intro hp
    refine ⟨hp.two_le, fun d hdlt hd2 hddvd => ?_⟩
    rcases Nat.Prime.eq_one_or_self_of_dvd hp d hddvd with h | h
    · omega
    · omega

/-! ### `next_prime` (lines 218-233) and `generate_primes` (lines 235-265)

The `while not self.is_prime_optimized(n): n += 2` loop of `next_prime` is
modelled by `Nat.find` over the candidates `m, m + 2, m + 4, ...`; the
existence proof below (infinitude of primes) discharges termination, and
`Nat.find`'s minimality is exactly the loop's first-hit semantics.  -/

theorem exists_prime_step (m : Nat) (hodd : m % 2 = 1) (h3 : 3 ≤ m) :
    ∃ k, is_prime_pure (m + 2 * k) = true := by
  obtain ⟨p, hle, hp⟩ := Nat.exists_infinite_primes m
  have hpodd : p % 2 = 1 := by
    rcases Nat.even_or_odd p with he | ho
    · have : p = 2 := (Nat.Prime.even_iff hp).mp he
      omega
    · exact Nat.odd_iff.mp ho
  refine ⟨(p - m) / 2, ?_⟩
  have hpm : m + 2 * ((p - m) / 2) = p := by omega
  rw [hpm]
  exact (is_prime_pure_iff p).mpr hp

/-- `next_prime` (lines 218-233): `n < 2 → 2`, `n = 2 → 3`, even `n → n + 1`,
then the first odd candidate `≥` the adjusted start whose `is_prime` verdict
is true.  The statistics counter `total_candidates` is not modelled here. -/
def next_prime (n : Nat) : Nat :=
  if h1 : n < 2 then 2
  else if h2 : n = 2 then 3
  else if h3 : n % 2 = 0 then
    n + 1 + 2 * Nat.find (exists_prime_step (n + 1) (by omega) (by omega))
  else
    n + 2 * Nat.find (exists_prime_step n (by omega) (by omega))

theorem find_prime_eq (m j : Nat) (h : ∃ k, is_prime_pure (m + 2 * k) = true)
    (hj : is_prime_pure (m + 2 * j) = true)
    (hmin : ∀ i, i < j → is_prime_pure (m + 2 * i) = false) :
    Nat.find h = j := by
  rw [Nat.find_eq_iff]
  exact ⟨hj, fun i hi => by rw [hmin i hi]; simp⟩

theorem next_prime_odd_eq (n j : Nat) (h3 : 3 ≤ n) (hodd : n % 2 = 1)
    (hj : is_prime_pure (n + 2 * j) = true)
    (hmin : ∀ i, i < j → is_prime_pure (n + 2 * i) = false) :
    next_prime n = n + 2 * j := by
  rw [next_prime, dif_neg (show ¬ n < 2 by omega), dif_neg (show ¬ n = 2 by omega),
    dif_neg (show ¬ n % 2 = 0 by omega)]
  rw [find_prime_eq n j _ hj hmin]

theorem next_prime_even_eq (n j : Nat) (h2 : 2 < n) (heven : n % 2 = 0)
    (hj : is_prime_pure (n + 1 + 2 * j) = true)
    (hmin : ∀ i, i < j → is_prime_pure (n + 1 + 2 * i) = false) :
    next_prime n = n + 1 + 2 * j := by
  rw [next_prime, dif_neg (show ¬ n < 2 by omega), dif_neg (show ¬ n = 2 by omega),
    dif_pos heven]
  rw [find_prime_eq (n + 1) j _ hj hmin]

/-- The body of the `while` loop of `generate_primes` (lines 242-263),
truncated to `fuel` emissions: each step finds `p = next_prime n`, computes
the gap against the previously emitted prime (`0` when there is none),
yields `(count, p, gap)` and advances the position to `p + 1`.  Persistence
and logging side effects are modelled separately; statistics updates are
modelled by `update_stats`. -/
def generate_go (fuel : Nat) (n : Nat) (last : Option Nat) (count : Nat) :
    List (Nat × Nat × Nat) :=
  match fuel with
  | 0 => []
  | fuel + 1 =>
    let p := next_prime n
    let gap := match last with
      | none => 0
      | some lp => p - lp
    (count + 1, p, gap) :: generate_go fuel (p + 1) (some p) (count + 1)

/-- `generate_primes(start, limit)` restricted to its yielded records: the
first `limit` records of the stream started at `start` (with no limit, the
stream's first `m` records coincide with `generate_primes start m`). -/
def generate_primes (start limit : Nat) : List (Nat × Nat × Nat) :=
  generate_go limit start none 0

/-- Concrete `is_prime` verdicts used to evaluate the generator. -/
theorem is_prime_pure_eval :
    is_prime_pure 3 = true ∧ is_prime_pure 5 = true ∧ is_prime_pure 7 = true ∧
      is_prime_pure 9 = false ∧ is_prime_pure 11 = true := by
  refine ⟨(is_prime_pure_iff 3).mpr (by norm_num), (is_prime_pure_iff 5).mpr (by norm_num),
    (is_prime_pure_iff 7).mpr (by norm_num), ?_, (is_prime_pure_iff 11).mpr (by norm_num)⟩
  refine Bool.eq_false_iff.mpr (fun hc => ?_)
  have : Nat.Prime 9 := (is_prime_pure_iff 9).mp hc
  norm_num at this

theorem next_prime_one : next_prime 1 = 2 := by
  rw [next_prime, dif_pos (by norm_num)]

theorem next_prime_three : next_prime 3 = 3 := by
  simpa using next_prime_odd_eq 3 0 (by norm_num) (by norm_num)
    (by simpa using is_prime_pure_eval.1) (fun i hi => absurd hi (by omega))

theorem next_prime_four : next_prime 4 = 5 := by
  simpa using next_prime_even_eq 4 0 (by norm_num) (by norm_num)
    (by simpa using is_prime_pure_eval.2.1) (fun i hi => absurd hi (by omega))

theorem next_prime_six : next_prime 6 = 7 := by
  simpa using next_prime_even_eq 6 0 (by norm_num) (by norm_num)
    (by simpa using is_prime_pure_eval.2.2.1) (fun i hi => absurd hi (by omega))

theorem next_prime_eight : next_prime 8 = 11 := by
  have hmin : ∀ i, i < 1 → is_prime_pure (8 + 1 + 2 * i) = false := by
    intro i hi
    have hz : i = 0 := by omega
    subst hz
    simpa using is_prime_pure_eval.2.2.2.1
  simpa using next_prime_even_eq 8 1 (by norm_num) (by norm_num)
    (by simpa using is_prime_pure_eval.2.2.2.2) hmin

/-- C1: for every `n` in `[0, 10^6]`, `is_prime(n)` agrees with the reference
primality definition (`n ≥ 2` with no divisor `2 ≤ d < n`); the verdict is
computed by the fast paths, then trial division by the small odd primes 3..31
and odd divisors from 37 upward, all strictly below `floor(sqrt(n)) + 1`
(this is the definition of `is_prime_pure`, and the theorem in fact holds
for all `n`). -/
theorem is_prime_agrees_with_reference (n : Nat) (h : n ≤ 10 ^ 6) :
    is_prime_pure n = refPrime n := by
  by_cases hp : Nat.Prime n
  · rw [show is_prime_pure n = true from (is_prime_pure_iff n).mpr hp,
      show refPrime n = true from (refPrime_iff n).mpr hp]
  · rw [show is_prime_pure n = false from
      Bool.eq_false_iff.mpr (fun hc => hp ((is_prime_pure_iff n).mp hc)),
      show refPrime n = false from
      Bool.eq_false_iff.mpr (fun hc => hp ((refPrime_iff n).mp hc))]

theorem is_prime_agrees_with_reference_witness :
    97 ≤ 10 ^ 6 ∧ is_prime_pure 97 = refPrime 97 :=
  ⟨by norm_num, is_prime_agrees_with_reference 97 (by norm_num)⟩

theorem generate_go_succ (fuel n count : Nat) (last : Option Nat) :
    generate_go (fuel + 1) n last count =
      (count + 1, next_prime n,
        match last with | none => 0 | some lp => next_prime n - lp)
        :: generate_go fuel (next_prime n + 1) (some (next_prime n)) (count + 1) := rfl

/-- C2: starting the generator at 1 with no maximum count, the first five
yielded records `(sequence_index, prime, gap)` are exactly
`(1,2,0), (2,3,1), (3,5,2), (4,7,2), (5,11,4)`: the first gap is 0 and each
later gap is the difference from the previously emitted prime. -/
theorem generator_first_five :
    generate_primes 1 5 = [(1, 2, 0), (2, 3, 1), (3, 5, 2), (4, 7, 2), (5, 11, 4)] := by
  have s5 : generate_go 5 1 none 0 = (1, 2, 0) :: generate_go 4 3 (some 2) 1 := by
    rw [show (5 : Nat) = 4 + 1 from rfl, generate_go_succ, next_prime_one]
  have s4 : generate_go 4 3 (some 2) 1 = (2, 3, 1) :: generate_go 3 4 (some 3) 2 := by
    rw [show (4 : Nat) = 3 + 1 from rfl, generate_go_succ, next_prime_three]
  have s3 : generate_go 3 4 (some 3) 2 = (3, 5, 2) :: generate_go 2 6 (some 5) 3 := by
    rw [show (3 : Nat) = 2 + 1 from rfl, generate_go_succ, next_prime_four]
  have s2 : generate_go 2 6 (some 5) 3 = (4, 7, 2) :: generate_go 1 8 (some 7) 4 := by
    rw [show (2 : Nat) = 1 + 1 from rfl, generate_go_succ, next_prime_six]
  have s1 : generate_go 1 8 (some 7) 4 = (5, 11, 4) :: generate_go 0 12 (some 11) 5 := by
    rw [show (1 : Nat) = 0 + 1 from rfl, generate_go_succ, next_prime_eight]
  have s0 : generate_go 0 12 (some 11) 5 = [] := rfl
  rw [generate_primes, s5, s4, s3, s2, s1, s0]

/-- C9: for every odd prime `n ≥ 3`, `next_prime n` returns `n` itself (the
candidate scan starts at `n`, not `n + 2`); and in the generation loop the
record following `(c, p, gap)` is `(c + 1, next_prime (p + 1), next_prime (p + 1) - p)`,
i.e. the loop advances its position to the emitted prime plus 1. -/
theorem generate_go_pair : ∀ i fuel n last count, i + 1 < fuel →
    ∃ c p gap p2, (generate_go fuel n last count).get? i = some (c, p, gap) ∧
      (generate_go fuel n last count).get? (i + 1) = some (c + 1, p2, p2 - p) ∧
      p2 = next_prime (p + 1) := by
  intro i
  induction i with
  | zero =>
    intro fuel n last count hfuel
    match fuel, hfuel with
    | fuel + 2, _ =>
      refine ⟨count + 1, next_prime n,
        (match last with | none => 0 | some lp => next_prime n - lp),
        next_prime (next_prime n + 1), ?_, ?_, rfl⟩
      · rfl
      · rfl
  | succ i ih =>
    intro fuel n last count hfuel
    match fuel, hfuel with
    | fuel + 1, hfuel =>
      have hlt : i + 1 < fuel := by omega
      obtain ⟨c, p, gap, p2, h1, h2, h3⟩ :=
        ih fuel (next_prime n + 1) (some (next_prime n)) (count + 1) hlt
      exact ⟨c, p, gap, p2, by simpa [generate_go] using h1,
        by simpa [generate_go] using h2, h3⟩

theorem next_prime_fixpoint_and_loop_advance :
    (∀ n, 3 ≤ n → n % 2 = 1 → Nat.Prime n → next_prime n = n) ∧
    (∀ start limit i, i + 1 < limit →
      ∃ c p gap p2, (generate_primes start limit).get? i = some (c, p, gap) ∧
        (generate_primes start limit).get? (i + 1) = some (c + 1, p2, p2 - p) ∧
        p2 = next_prime (p + 1)) := by
  constructor
  · intro n h3 hodd hp
    simpa using next_prime_odd_eq n 0 h3 hodd
      (by simpa using (is_prime_pure_iff n).mpr hp) (fun i hi => absurd hi (by omega))
  · intro start limit i hi
    exact generate_go_pair i limit start none 0 hi

theorem next_prime_fixpoint_and_loop_advance_witness :
    (next_prime 7 = 7) ∧
    (∃ c p gap p2, (generate_primes 1 3).get? 0 = some (c, p, gap) ∧
      (generate_primes 1 3).get? 1 = some (c + 1, p2, p2 - p) ∧
      p2 = next_prime (p + 1)) :=
  ⟨next_prime_fixpoint_and_loop_advance.1 7 (by norm_num) (by norm_num) (by norm_num),
    next_prime_fixpoint_and_loop_advance.2 1 3 0 (by norm_num)⟩

/-! ### Binary encoding (`binary_code`, `pro_en` lines 157-172 and `pro` lines 157-159)

Python's `format(n, '0{w}b')` renders `n` in binary, most significant bit
first (`"0"` for `n = 0`), left-padded with zeros to a MINIMUM width of `w`:
it never truncates.  `bitsAux` produces the binary digits of `n` (MSB first,
empty for 0) with a fuel argument (`fuel ≥ n` suffices); `pyFormatB` is the
format call.  `bitsToNat` reads a digit string back as a number and is used
to state what value a rendering carries. -/

def bitsAux : Nat → Nat → List Char
  | 0, _ => []
  | fuel + 1, n =>
    if n = 0 then []
    else bitsAux fuel (n / 2) ++ [if n % 2 = 1 then '1' else '0']

def bitChars (n : Nat) : List Char := bitsAux n n

def pyFormatB (w n : Nat) : List Char :=
  List.replicate (w - (if n = 0 then ['0'] else bitChars n).length) '0' ++
    (if n = 0 then ['0'] else bitChars n)

/-- `n.bit_length()` of Python. -/
def bit_length (n : Nat) : Nat := if n = 0 then 0 else Nat.log2 n + 1

/-- The adaptive encoder `binary_code` of `binary_prime_engine_pro_en.py`
(lines 157-172): with `bits = None` compute the bit length, round up to a
nibble, floor at 8; with explicit `bits` call `format(n, '0{bits}b')`
directly (no masking). -/
def binary_code_en (n : Nat) (bits : Option Nat) : List Char :=
  match bits with
  | none =>
    if n = 0 then ['0']
    else pyFormatB (max (((bit_length n + 3) / 4) * 4) 8) n
  | some w => pyFormatB w n

/-- The fixed-width encoder `binary_code` of `binary_prime_engine_pro.py`
(lines 157-159): `format(n & ((1 << bits) - 1), '0{bits}b')` — the value is
masked to its low `bits` bits before rendering. -/
def binary_code_pro (n w : Nat) : List Char := pyFormatB w (n % 2 ^ w)

def bitsToNat (s : List Char) : Nat :=
  s.foldl (fun acc c => 2 * acc + (if c = '1' then 1 else 0)) 0

theorem bitsToNat_append_singleton (l : List Char) (c : Char) :
    bitsToNat (l ++ [c]) = 2 * bitsToNat l + (if c = '1' then 1 else 0) := by
  rw [bitsToNat, List.foldl_append]
  rfl

theorem bitsAux_zero_arg (fuel : Nat) : bitsAux fuel 0 = [] := by
  cases fuel with
  | zero => rfl
  | succ f => rw [bitsAux, if_pos rfl]

theorem bitsAux_decode (fuel n : Nat) (h : n ≤ fuel) :
    bitsToNat (bitsAux fuel n) = n := by
  induction fuel generalizing n with
  | zero =>
    have hz : n = 0 := by omega
    subst hz
    rfl
  | succ fuel ih =>
    by_cases h0 : n = 0
    · subst h0; rw [bitsAux, if_pos rfl]; rfl
    · have hhalf : n / 2 ≤ fuel := by omega
      rw [bitsAux, if_neg h0, bitsToNat_append_singleton, ih (n / 2) hhalf]
      by_cases hm : n % 2 = 1
      · rw [if_pos hm, if_pos rfl]; omega
      · rw [if_neg hm, if_neg (show ¬ ('0' : Char) = '1' by decide)]; omega

theorem bitsToNat_replicate_zero_append (k : Nat) (s : List Char) :
    bitsToNat (List.replicate k '0' ++ s) = bitsToNat s := by
  induction k with
  | zero => simp
  | succ k ih =>
    rw [List.replicate_succ, List.cons_append]
    show bitsToNat (List.replicate k '0' ++ s) = bitsToNat s
    exact ih

theorem log2_one : Nat.log2 1 = 0 := by
  rw [Nat.log2]
  norm_num

theorem bitsAux_length (fuel n : Nat) (h : n ≤ fuel) (h0 : 0 < n) :
    (bitsAux fuel n).length = Nat.log2 n + 1 := by
  induction fuel generalizing n with
  | zero => omega
  | succ fuel ih =>
    rw [bitsAux, if_neg (by omega), List.length_append]
    by_cases h2 : n < 2
    · have h1 : n = 1 := by omega
      subst h1
      rw [show (1 : Nat) / 2 = 0 from rfl, bitsAux_zero_arg, log2_one]
      rfl
    · have hhalf : n / 2 ≤ fuel := by omega
      have hpos : 0 < n / 2 := by omega
      rw [ih (n / 2) hhalf hpos]
      have hlog : Nat.log2 n = Nat.log2 (n / 2) + 1 := by
        conv_lhs => rw [Nat.log2]
        rw [if_pos (show 2 ≤ n by omega)]
      rw [hlog]
      rfl

theorem pyFormatB_decode (w n : Nat) : bitsToNat (pyFormatB w n) = n := by
  by_cases h0 : n = 0
  · subst h0
    rw [pyFormatB, if_pos rfl, bitsToNat_replicate_zero_append]
    rfl
  · rw [pyFormatB, if_neg h0, bitsToNat_replicate_zero_append]
    exact bitsAux_decode n n (le_refl n)

theorem pyFormatB_length (w n : Nat) :
    (pyFormatB w n).length =
      max w (if n = 0 then 1 else Nat.log2 n + 1) := by
  by_cases h0 : n = 0
  · subst h0
    rw [pyFormatB, if_pos rfl, List.length_append, List.length_replicate]
    simp
    omega
  · rw [pyFormatB, if_neg h0, List.length_append, List.length_replicate,
      bitChars, bitsAux_length n n (le_refl n) (by omega), if_neg h0]
    omega

theorem log2_lt_of_lt_pow (n w : Nat) (h0 : n ≠ 0) (h : n < 2 ^ w) :
    Nat.log2 n < w := by
  by_contra hc
  push_neg at hc
  have h1 : 2 ^ w ≤ 2 ^ Nat.log2 n := Nat.pow_le_pow_right (by omega) hc
  have h2 : 2 ^ Nat.log2 n ≤ n := Nat.log2_self_le h0
  omega

/-- C3 counterexample: the adaptive encoder called as `binary_code(255, 4)`
returns the 8-character string `"11111111"`, not a 4-character string of the
low 4 bits: no truncation happens. -/
theorem encoder_no_truncation_counterexample :
    (binary_code_en 255 (some 4)).length = 8 ∧
      ¬ (binary_code_en 255 (some 4)).length = 4 ∧
      bitsToNat (binary_code_en 255 (some 4)) = 255 := by
  refine ⟨rfl, by decide, rfl⟩

/-- C3 amended: for `w > 0`, `binary_code(n, w)` of the adaptive
(`pro_en`) encoder returns at least `w` characters — exactly
`max w (bit_length n)` — and preserves every bit of `n` (no truncation);
the fixed-width encoder of `binary_prime_engine_pro.py` is the one that
returns exactly `w` characters carrying the low `w` bits of `n`. -/
theorem encoder_explicit_width (n w : Nat) (hw : 0 < w) :
    w ≤ (binary_code_en n (some w)).length ∧
      bitsToNat (binary_code_en n (some w)) = n ∧
      (binary_code_pro n w).length = w ∧
      bitsToNat (binary_code_pro n w) = n % 2 ^ w := by
  refine ⟨?_, pyFormatB_decode w n, ?_, pyFormatB_decode w (n % 2 ^ w)⟩
  · show w ≤ (pyFormatB w n).length
    rw [pyFormatB_length]
    omega
  · show (pyFormatB w (n % 2 ^ w)).length = w
    rw [pyFormatB_length]
    by_cases h0 : n % 2 ^ w = 0
    · rw [if_pos h0]; omega
    · rw [if_neg h0]
      have hlt : n % 2 ^ w < 2 ^ w := Nat.mod_lt n (Nat.pos_pow_of_pos w (by omega))
      have := log2_lt_of_lt_pow (n % 2 ^ w) w h0 hlt
      omega

theorem encoder_explicit_width_witness :
    0 < 4 ∧
      (4 ≤ (binary_code_en 255 (some 4)).length ∧
        bitsToNat (binary_code_en 255 (some 4)) = 255 ∧
        (binary_code_pro 255 4).length = 4 ∧
        bitsToNat (binary_code_pro 255 4) = 255 % 2 ^ 4) :=
  ⟨by norm_num, encoder_explicit_width 255 4 (by norm_num)⟩

/-! ### The LRU cache (`PrimeCache`, lines 52-90)

The Python `dict` from candidate to verdict is modelled as an association
list (insertion-ordered, unique keys), the `deque access_order` as a list
whose front is the least recently used key.  `findVal`/`setVal`/`delKey`
model `n in cache` + `cache[n]`, `cache[n] = v` (in-place update when the
key exists, append otherwise) and `del cache[k]`.  `deque.remove(n)` removes
the first occurrence, which is `List.erase`.  `max_size` is an `Int`
because the constructor performs no validation and the code compares it
with `0` and with `len(cache)` (claims C4, C8, C10).  The `threading.RLock`
serialises the operations; the model's sequential semantics is the locked
behaviour. -/

def findVal : List (Nat × Bool) → Nat → Option Bool
  | [], _ => none
  | (k, v) :: rest, n => if k = n then some v else findVal rest n

def setVal : List (Nat × Bool) → Nat → Bool → List (Nat × Bool)
  | [], n, v => [(n, v)]
  | (k, w) :: rest, n, v =>
    if k = n then (k, v) :: rest else (k, w) :: setVal rest n v

def delKey : List (Nat × Bool) → Nat → List (Nat × Bool)
  | [], _ => []
  | (k, w) :: rest, n => if k = n then rest else (k, w) :: delKey rest n

structure PrimeCache where
  max_size : Int
  cache : List (Nat × Bool)
  access_order : List Nat
deriving DecidableEq

/-- `PrimeCache.__init__` (lines 55-59): stores `max_size` verbatim — there
is no validation of any kind — and starts with empty dict and deque. -/
def PrimeCache.init (max_size : Int) : PrimeCache :=
  { max_size := max_size, cache := [], access_order := [] }

/-- `PrimeCache.get` (lines 61-69): on a hit, move `n` to the back of the
recency order and return the verdict; on a miss return `None`. -/
def PrimeCache.get (c : PrimeCache) (n : Nat) : Option Bool × PrimeCache :=
  match findVal c.cache n with
  | some v => (some v, { c with access_order := c.access_order.erase n ++ [n] })
  | none => (none, c)

/-- `PrimeCache.put` (lines 71-87): no-op when `max_size == 0`; refresh
recency when the key is present; evict the front of the recency order when
the dict is at (or beyond) capacity and the order is non-empty; finally
store the verdict and append `n` to the recency order.  The final two
assignments of the Python body are inlined into each branch. -/
def PrimeCache.put (c : PrimeCache) (n : Nat) (v : Bool) : PrimeCache :=
  if c.max_size = 0 then c
  else if (findVal c.cache n).isSome then
    { c with cache := setVal c.cache n v,
             access_order := c.access_order.erase n ++ [n] }
  else if c.max_size ≤ (c.cache.length : Int) then
    match c.access_order with
    | [] => { c with cache := setVal c.cache n v,
                     access_order := c.access_order ++ [n] }
    | oldest :: rest =>
      { c with cache := setVal (delKey c.cache oldest) n v,
               access_order := rest ++ [n] }
  else { c with cache := setVal c.cache n v,
                access_order := c.access_order ++ [n] }

/-- `PrimeCache.size` (lines 89-90). -/
def PrimeCache.size (c : PrimeCache) : Nat := c.cache.length

def cacheKeys (c : PrimeCache) : List Nat := c.cache.map Prod.fst

/-- Well-formedness of a cache state: unique keys, the recency order is a
permutation of the key set, and the occupancy bounds (`≤ max_size` for a
non-negative capacity; at most one entry when the capacity is negative). -/
def CacheInv (c : PrimeCache) : Prop :=
  (cacheKeys c).Nodup ∧ c.access_order.Perm (cacheKeys c) ∧
    (0 ≤ c.max_size → (c.cache.length : Int) ≤ c.max_size) ∧
    (c.max_size < 0 → c.cache.length ≤ 1)

theorem findVal_eq_none_iff (l : List (Nat × Bool)) (n : Nat) :
    findVal l n = none ↔ n ∉ l.map Prod.fst := by
  induction l with
  | nil => simp [findVal]
  | cons p rest ih =>
    obtain ⟨k, v⟩ := p
    by_cases hk : k = n
    · subst hk
      rw [findVal, if_pos rfl]
      simp
    · rw [findVal, if_neg hk]
      simp only [List.map_cons, List.mem_cons]
      rw [ih]
      constructor
      · intro hn hor
        rcases hor with h | h
        · exact hk h.symm
        · exact hn h
      · intro hn h
        exact hn (Or.inr h)

theorem findVal_isSome_iff (l : List (Nat × Bool)) (n : Nat) :
    (findVal l n).isSome = true ↔ n ∈ l.map Prod.fst := by
  rcases h : findVal l n with _ | v
  · constructor
    · intro hc; simp at hc
    · intro hmem
      exact absurd hmem ((findVal_eq_none_iff l n).mp h)
  · constructor
    · intro _
      by_contra hc
      have hnone := (findVal_eq_none_iff l n).mpr hc
      rw [h] at hnone
      exact Option.noConfusion hnone
    · intro _; rfl

theorem setVal_map_fst_present (l : List (Nat × Bool)) (n : Nat) (v : Bool)
    (h : n ∈ l.map Prod.fst) :
    (setVal l n v).map Prod.fst = l.map Prod.fst := by
  induction l with
  | nil => simp at h
  | cons p rest ih =>
    obtain ⟨k, w⟩ := p
    by_cases hk : k = n
    · subst hk; rw [setVal, if_pos rfl]; simp
    · rw [setVal, if_neg hk]
      simp only [List.map_cons]
      simp only [List.map_cons, List.mem_cons] at h
      rcases h with h | h
      · exact absurd h.symm hk
      · rw [ih h]

theorem setVal_map_fst_absent (l : List (Nat × Bool)) (n : Nat) (v : Bool)
    (h : n ∉ l.map Prod.fst) :
    (setVal l n v).map Prod.fst = l.map Prod.fst ++ [n] := by
  induction l with
  | nil => simp [setVal]
  | cons p rest ih =>
    obtain ⟨k, w⟩ := p
    simp only [List.map_cons, List.mem_cons] at h
    push_neg at h
    rw [setVal, if_neg (fun hc => h.1 hc.symm)]
    simp only [List.map_cons, List.cons_append]
    rw [ih h.2]

theorem delKey_map_fst (l : List (Nat × Bool)) (n : Nat) :
    (delKey l n).map Prod.fst = (l.map Prod.fst).erase n := by
  induction l with
  | nil => simp [delKey]
  | cons p rest ih =>
    obtain ⟨k, w⟩ := p
    by_cases hk : k = n
    · subst hk
      rw [delKey, if_pos rfl]
      simp only [List.map_cons]
      rw [List.erase_cons_head]
    · rw [delKey, if_neg hk]
      simp only [List.map_cons]
      rw [List.erase_cons_tail (by simpa using hk), ih]

theorem findVal_setVal_self (l : List (Nat × Bool)) (n : Nat) (v : Bool) :
    findVal (setVal l n v) n = some v := by
  induction l with
  | nil => simp [setVal, findVal]
  | cons p rest ih =>
    obtain ⟨k, w⟩ := p
    by_cases hk : k = n
    · subst hk; rw [setVal, if_pos rfl, findVal, if_pos rfl]
    · rw [setVal, if_neg hk, findVal, if_neg hk]; exact ih

theorem setVal_length_present (l : List (Nat × Bool)) (n : Nat) (v : Bool)
    (h : n ∈ l.map Prod.fst) : (setVal l n v).length = l.length := by
  have := setVal_map_fst_present l n v h
  have h1 : ((setVal l n v).map Prod.fst).length = (l.map Prod.fst).length := by rw [this]
  simpa using h1

theorem setVal_length_absent (l : List (Nat × Bool)) (n : Nat) (v : Bool)
    (h : n ∉ l.map Prod.fst) : (setVal l n v).length = l.length + 1 := by
  have := setVal_map_fst_absent l n v h
  have h1 : ((setVal l n v).map Prod.fst).length = (l.map Prod.fst ++ [n]).length := by rw [this]
  simp at h1
  simpa using h1

theorem delKey_length (l : List (Nat × Bool)) (n : Nat)
    (h : n ∈ l.map Prod.fst) : (delKey l n).length + 1 = l.length := by
  have := delKey_map_fst l n
  have h1 : ((delKey l n).map Prod.fst).length = ((l.map Prod.fst).erase n).length := by rw [this]
  rw [List.length_erase_of_mem h] at h1
  simp only [List.length_map] at h1
  have hpos : 0 < l.length := by
    cases l with
    | nil => simp at h
    | cons a t => simp
  omega

theorem cacheInv_init (m : Int) : CacheInv (PrimeCache.init m) := by
  refine ⟨List.nodup_nil, List.Perm.refl [], ?_, ?_⟩
  · intro hm; simpa [PrimeCache.init] using hm
  · intro _; simp [PrimeCache.init]

theorem cacheInv_get (c : PrimeCache) (n : Nat) (h : CacheInv c) :
    CacheInv (c.get n).2 := by
  obtain ⟨hnd, hperm, hb1, hb2⟩ := h
  rcases hf : findVal c.cache n with _ | v
  · simp only [PrimeCache.get, hf]
    exact ⟨hnd, hperm, hb1, hb2⟩
  · simp only [PrimeCache.get, hf]
    have hmem : n ∈ cacheKeys c := (findVal_isSome_iff c.cache n).mp (by rw [hf]; rfl)
    have hmemA : n ∈ c.access_order := hperm.mem_iff.mpr hmem
    refine ⟨hnd, ?_, hb1, hb2⟩
    have p1 : List.Perm (c.access_order.erase n ++ [n]) (n :: c.access_order.erase n) :=
      List.perm_append_singleton n _
    have p2 : List.Perm c.access_order (n :: c.access_order.erase n) :=
      List.perm_cons_erase hmemA
    exact p1.trans (p2.symm.trans hperm)

theorem cacheInv_put (c : PrimeCache) (n : Nat) (v : Bool) (h : CacheInv c) :
    CacheInv (c.put n v) := by
  obtain ⟨hnd, hperm, hb1, hb2⟩ := h
  by_cases h0 : c.max_size = 0
  · rw [PrimeCache.put, if_pos h0]
    exact ⟨hnd, hperm, hb1, hb2⟩
  · by_cases hpres : (findVal c.cache n).isSome = true
    · have hmem : n ∈ cacheKeys c := (findVal_isSome_iff _ _).mp hpres
      have hmemA : n ∈ c.access_order := hperm.mem_iff.mpr hmem
      rw [PrimeCache.put, if_neg h0, if_pos hpres]
      refine ⟨?_, ?_, ?_, ?_⟩
      · show ((setVal c.cache n v).map Prod.fst).Nodup
        rw [setVal_map_fst_present _ _ _ hmem]
        exact hnd
      · show List.Perm (c.access_order.erase n ++ [n]) ((setVal c.cache n v).map Prod.fst)
        rw [setVal_map_fst_present _ _ _ hmem]
        have p1 : List.Perm (c.access_order.erase n ++ [n]) (n :: c.access_order.erase n) :=
          List.perm_append_singleton n _
        have p2 : List.Perm c.access_order (n :: c.access_order.erase n) :=
          List.perm_cons_erase hmemA
        exact p1.trans (p2.symm.trans hperm)
      · show 0 ≤ c.max_size → ((setVal c.cache n v).length : Int) ≤ c.max_size
        rw [setVal_length_present _ _ _ hmem]
        exact hb1
      · show c.max_size < 0 → (setVal c.cache n v).length ≤ 1
        rw [setVal_length_present _ _ _ hmem]
        exact hb2
    · have habs : n ∉ cacheKeys c := by
        intro hc
        exact hpres ((findVal_isSome_iff _ _).mpr hc)
      by_cases hfull : c.max_size ≤ (c.cache.length : Int)
      · rw [PrimeCache.put, if_neg h0, if_neg hpres, if_pos hfull]
        rcases hA : c.access_order with _ | ⟨oldest, rest⟩
        · have hkeysnil : cacheKeys c = [] := by
            have hp : List.Perm (cacheKeys c) [] := (hA ▸ hperm).symm
            exact hp.eq_nil
          have hcache : c.cache = [] := by
            cases hc : c.cache with
            | nil => rfl
            | cons a t =>
              rw [cacheKeys, hc] at hkeysnil
              exact absurd hkeysnil (by simp)
          have hneg : c.max_size < 0 := by
            rw [hcache] at hfull
            simp at hfull
            omega
          refine ⟨?_, ?_, ?_, ?_⟩
          · show ((setVal c.cache n v).map Prod.fst).Nodup
            rw [hcache]
            simp [setVal]
          · show List.Perm ([] ++ [n]) ((setVal c.cache n v).map Prod.fst)
            rw [hcache]
            simp [setVal]
          · show 0 ≤ c.max_size → ((setVal c.cache n v).length : Int) ≤ c.max_size
            intro hge; omega
          · show c.max_size < 0 → (setVal c.cache n v).length ≤ 1
            intro _
            rw [hcache]
            simp [setVal]
        · have hOmem : oldest ∈ c.access_order := by
            rw [hA]; exact List.mem_cons_self _ _
          have hOkeys : oldest ∈ cacheKeys c := hperm.mem_iff.mp hOmem
          have hnotdel : n ∉ (delKey c.cache oldest).map Prod.fst := by
            rw [delKey_map_fst]
            intro hc
            exact habs (List.mem_of_mem_erase hc)
          have hkeys2 : (setVal (delKey c.cache oldest) n v).map Prod.fst =
              (cacheKeys c).erase oldest ++ [n] := by
            rw [setVal_map_fst_absent _ _ _ hnotdel, delKey_map_fst]
            rfl
          have hlen2 : (setVal (delKey c.cache oldest) n v).length = c.cache.length := by
            rw [setVal_length_absent _ _ _ hnotdel]
            exact delKey_length c.cache oldest hOkeys
          have hndE : ((cacheKeys c).erase oldest).Nodup := hnd.erase oldest
          have hnE : n ∉ (cacheKeys c).erase oldest :=
            fun hc => habs (List.mem_of_mem_erase hc)
          refine ⟨?_, ?_, ?_, ?_⟩
          · show ((setVal (delKey c.cache oldest) n v).map Prod.fst).Nodup
            rw [hkeys2]
            rw [(List.perm_append_singleton n _).nodup_iff, List.nodup_cons]
            exact ⟨hnE, hndE⟩
          · show List.Perm (rest ++ [n]) ((setVal (delKey c.cache oldest) n v).map Prod.fst)
            rw [hkeys2]
            have prest : List.Perm rest ((cacheKeys c).erase oldest) := by
              have hko : List.Perm (oldest :: rest) (cacheKeys c) := hA ▸ hperm
              have := hko.erase oldest
              rw [List.erase_cons_head] at this
              exact this
            have p1 : List.Perm (rest ++ [n]) (n :: rest) := List.perm_append_singleton n rest
            have p2 : List.Perm ((cacheKeys c).erase oldest ++ [n])
                (n :: (cacheKeys c).erase oldest) := List.perm_append_singleton n _
            exact p1.trans ((prest.cons n).trans p2.symm)
          · show 0 ≤ c.max_size → ((setVal (delKey c.cache oldest) n v).length : Int) ≤ c.max_size
            rw [hlen2]
            exact hb1
          · show c.max_size < 0 → (setVal (delKey c.cache oldest) n v).length ≤ 1
            rw [hlen2]
            exact hb2
      · rw [PrimeCache.put, if_neg h0, if_neg hpres, if_neg hfull]
        push_neg at hfull
        have hkeys2 : (setVal c.cache n v).map Prod.fst = cacheKeys c ++ [n] :=
          setVal_map_fst_absent _ _ _ habs
        have hlen2 : (setVal c.cache n v).length = c.cache.length + 1 :=
          setVal_length_absent _ _ _ habs
        refine ⟨?_, ?_, ?_, ?_⟩
        · show ((setVal c.cache n v).map Prod.fst).Nodup
          rw [hkeys2, (List.perm_append_singleton n _).nodup_iff, List.nodup_cons]
          exact ⟨habs, hnd⟩
        · show List.Perm (c.access_order ++ [n]) ((setVal c.cache n v).map Prod.fst)
          rw [hkeys2]
          have p1 : List.Perm (c.access_order ++ [n]) (n :: c.access_order) :=
            List.perm_append_singleton n _
          have p2 : List.Perm (cacheKeys c ++ [n]) (n :: cacheKeys c) :=
            List.perm_append_singleton n _
          exact p1.trans ((hperm.cons n).trans p2.symm)
        · show 0 ≤ c.max_size → ((setVal c.cache n v).length : Int) ≤ c.max_size
          intro hge
          rw [hlen2]
          push_cast
          omega
        · show c.max_size < 0 → (setVal c.cache n v).length ≤ 1
          intro hneg
          exfalso
          have hge0 : (0 : Int) ≤ (c.cache.length : Int) := by positivity
          omega

/-- A finite sequence of cache operations (claim C10). -/
inductive CacheOp where
  | getOp (n : Nat)
  | putOp (n : Nat) (v : Bool)

def applyOp (c : PrimeCache) : CacheOp → PrimeCache
  | .getOp n => (c.get n).2
  | .putOp n v => c.put n v

def applyOps : PrimeCache → List CacheOp → PrimeCache
  | c, [] => c
  | c, op :: rest => applyOps (applyOp c op) rest

theorem get_max_size (c : PrimeCache) (n : Nat) :
    ((c.get n).2).max_size = c.max_size := by
  rcases h : findVal c.cache n with _ | v <;> simp [PrimeCache.get, h]

theorem put_max_size (c : PrimeCache) (n : Nat) (v : Bool) :
    (c.put n v).max_size = c.max_size := by
  rw [PrimeCache.put]
  split_ifs with h0 h1 h2
  · rfl
  · rfl
  · rcases c.access_order with _ | ⟨o, r⟩ <;> rfl
  · rfl

theorem applyOps_max_size (c : PrimeCache) (ops : List CacheOp) :
    (applyOps c ops).max_size = c.max_size := by
  induction ops generalizing c with
  | nil => rfl
  | cons op rest ih =>
    rw [applyOps, ih]
    cases op with
    | getOp n => exact get_max_size c n
    | putOp n v => exact put_max_size c n v

theorem cacheInv_applyOps (c : PrimeCache) (ops : List CacheOp) (h : CacheInv c) :
    CacheInv (applyOps c ops) := by
  induction ops generalizing c with
  | nil => exact h
  | cons op rest ih =>
    cases op with
    | getOp n => exact ih _ (cacheInv_get c n h)
    | putOp n v => exact ih _ (cacheInv_put c n v h)

/-- C10: for every cache constructed with `max_size ≥ 0` and every finite
sequence of get/put operations, the entry count never exceeds `max_size`
and the recency order contains exactly the keys of the verdict map, each
exactly once. -/
theorem cache_occupancy_and_order_invariant (m : Int) (hm : 0 ≤ m) (ops : List CacheOp) :
    ((applyOps (PrimeCache.init m) ops).cache.length : Int) ≤ m ∧
      (applyOps (PrimeCache.init m) ops).access_order.Nodup ∧
      (cacheKeys (applyOps (PrimeCache.init m) ops)).Nodup ∧
      (∀ k, k ∈ (applyOps (PrimeCache.init m) ops).access_order ↔
        k ∈ cacheKeys (applyOps (PrimeCache.init m) ops)) := by
  obtain ⟨hnd, hperm, hb1, hb2⟩ :=
    cacheInv_applyOps (PrimeCache.init m) ops (cacheInv_init m)
  have hms : (applyOps (PrimeCache.init m) ops).max_size = m :=
    applyOps_max_size (PrimeCache.init m) ops
  refine ⟨?_, ?_, hnd, ?_⟩
  · have := hb1 (by rw [hms]; exact hm)
    rw [hms] at this
    exact this
  · exact hperm.nodup_iff.mpr hnd
  · intro k
    exact hperm.mem_iff

theorem cache_occupancy_and_order_invariant_witness :
    (0 : Int) ≤ 2 ∧
      ((applyOps (PrimeCache.init 2) [.putOp 3 true, .putOp 5 false, .getOp 3,
          .putOp 7 true]).cache.length : Int) ≤ 2 ∧
      (applyOps (PrimeCache.init 2) [.putOp 3 true, .putOp 5 false, .getOp 3,
          .putOp 7 true]).access_order.Nodup ∧
      (cacheKeys (applyOps (PrimeCache.init 2) [.putOp 3 true, .putOp 5 false, .getOp 3,
          .putOp 7 true])).Nodup ∧
      (∀ k, k ∈ (applyOps (PrimeCache.init 2) [.putOp 3 true, .putOp 5 false, .getOp 3,
          .putOp 7 true]).access_order ↔
        k ∈ cacheKeys (applyOps (PrimeCache.init 2) [.putOp 3 true, .putOp 5 false, .getOp 3,
          .putOp 7 true])) :=
  ⟨by decide, cache_occupancy_and_order_invariant 2 (by decide)
    [.putOp 3 true, .putOp 5 false, .getOp 3, .putOp 7 true]⟩

/-- C8 counterexample: constructing a cache with negative capacity `-1`
raises nothing — the constructor stores the value verbatim and the cache is
fully operational afterwards (the code contains no `InvalidConfiguration`
or any other construction-time validation). -/
theorem negative_capacity_no_error_counterexample :
    (PrimeCache.init (-1)).max_size = -1 ∧
      (PrimeCache.init (-1)).cache = [] ∧
      ((PrimeCache.init (-1)).put 5 true).cache = [(5, true)] := by
  decide

/-- C8 amended: construction with a negative capacity succeeds without any
validation (no fault is raised anywhere in the constructor), storing the
capacity verbatim; such a cache then simply never holds more than one
entry, because every insert sees `len(cache) >= max_size`. -/
theorem negative_capacity_construction (m : Int) (hneg : m < 0) (ops : List CacheOp) :
    (PrimeCache.init m).max_size = m ∧
      (applyOps (PrimeCache.init m) ops).cache.length ≤ 1 := by
  refine ⟨rfl, ?_⟩
  obtain ⟨_, _, _, hb2⟩ := cacheInv_applyOps (PrimeCache.init m) ops (cacheInv_init m)
  refine hb2 ?_
  rw [applyOps_max_size]
  exact hneg

theorem negative_capacity_construction_witness :
    (-1 : Int) < 0 ∧
      ((PrimeCache.init (-1)).max_size = -1 ∧
        (applyOps (PrimeCache.init (-1)) [.putOp 1 true, .putOp 2 true]).cache.length ≤ 1) :=
  ⟨by decide, negative_capacity_construction (-1) (by decide) [.putOp 1 true, .putOp 2 true]⟩

/-- C4 counterexample: with capacity `k = 1`, a cache holding only key 1,
where key 1 is looked up immediately before the overflowing insert of key 2,
evicts key 1 (it is the sole — hence least-recently-used — entry), refuting
the claim's "key 1 is not the evicted key" at `k = 1`. -/
theorem lru_eviction_key1_counterexample :
    ((PrimeCache.init 1).put 1 true).cache = [(1, true)] ∧
      (((((PrimeCache.init 1).put 1 true).get 1).2).put 2 true).cache = [(2, true)] := by
  decide

/-- C4 amended: for a well-formed cache of capacity `k > 0` holding `k`
entries, inserting a fresh key evicts exactly one entry, namely the front of
the recency order (the key least recently looked up or recorded; ties are
resolved by the deque's insertion order); and when the cache holds at least
two entries, a key looked up immediately before the overflowing insert is
not the evicted key (with `k = 1` the looked-up key is itself the LRU entry
and is evicted). -/
theorem lru_eviction (c : PrimeCache) (key1 n : Nat) (v : Bool)
    (hinv : CacheInv c) (hpos : 0 < c.max_size)
    (hfull : (c.cache.length : Int) = c.max_size)
    (hkey1 : key1 ∈ cacheKeys c) (hfresh : n ∉ cacheKeys c)
    (htwo : 2 ≤ c.cache.length) :
    ∃ oldest rest,
      ((c.get key1).2).access_order = oldest :: rest ∧
      oldest ≠ key1 ∧
      (((c.get key1).2).put n v).cache.length = c.cache.length ∧
      (∀ k, k ∈ cacheKeys (((c.get key1).2).put n v) ↔
        (k ∈ cacheKeys c ∧ k ≠ oldest) ∨ k = n) ∧
      key1 ∈ cacheKeys (((c.get key1).2).put n v) ∧
      n ∈ cacheKeys (((c.get key1).2).put n v) := by
  obtain ⟨hnd, hperm, hb1, hb2⟩ := hinv
  have hndA : c.access_order.Nodup := hperm.nodup_iff.mpr hnd
  obtain ⟨v1, hf⟩ : ∃ w, findVal c.cache key1 = some w := by
    rcases hf : findVal c.cache key1 with _ | w
    · exact absurd hkey1 ((findVal_eq_none_iff _ _).mp hf)
    · exact ⟨w, rfl⟩
  have hc1 : (c.get key1).2 =
      { c with access_order := c.access_order.erase key1 ++ [key1] } := by
    simp [PrimeCache.get, hf]
  have hmemA : key1 ∈ c.access_order := hperm.mem_iff.mpr hkey1
  have hlenA : c.access_order.length = c.cache.length := by
    have := hperm.length_eq
    rw [cacheKeys, List.length_map] at this
    exact this
  have hlenE : (c.access_order.erase key1).length + 1 = c.access_order.length :=
    List.length_erase_add_one hmemA
  obtain ⟨oldest, rest1, hE⟩ : ∃ o r, c.access_order.erase key1 = o :: r := by
    rcases hEc : c.access_order.erase key1 with _ | ⟨o, r⟩
    · rw [hEc] at hlenE; simp at hlenE; omega
    · exact ⟨o, r, rfl⟩
  have hOA : oldest ∈ c.access_order.erase key1 := by
    rw [hE]; exact List.mem_cons_self _ _
  have hOne : oldest ≠ key1 ∧ oldest ∈ c.access_order :=
    (hndA.mem_erase_iff.mp hOA)
  have hOkeys : oldest ∈ cacheKeys c := hperm.mem_iff.mp hOne.2
  have hfreshd : n ∉ (delKey c.cache oldest).map Prod.fst := by
    rw [delKey_map_fst]
    intro hc
    exact hfresh (List.mem_of_mem_erase hc)
  have haccess1 : ((c.get key1).2).access_order = oldest :: (rest1 ++ [key1]) := by
    rw [hc1]
    show c.access_order.erase key1 ++ [key1] = oldest :: (rest1 ++ [key1])
    rw [hE, List.cons_append]
  have hput : (((c.get key1).2).put n v) =
      { c with cache := setVal (delKey c.cache oldest) n v,
               access_order := (rest1 ++ [key1]) ++ [n] } := by
    rw [hc1, PrimeCache.put]
    rw [if_neg (show ¬ c.max_size = 0 by omega)]
    rw [if_neg (show ¬ (findVal c.cache n).isSome = true by
      rw [(findVal_eq_none_iff c.cache n).mpr hfresh]; simp)]
    rw [if_pos (show c.max_size ≤ ((c.cache.length : Nat) : Int) by omega)]
    have : c.access_order.erase key1 ++ [key1] = oldest :: (rest1 ++ [key1]) := by
      rw [hE, List.cons_append]
    rw [this]
  have hkeys2 : cacheKeys (((c.get key1).2).put n v) =
      (cacheKeys c).erase oldest ++ [n] := by
    rw [hput]
    show (setVal (delKey c.cache oldest) n v).map Prod.fst = (cacheKeys c).erase oldest ++ [n]
    rw [setVal_map_fst_absent _ _ _ hfreshd, delKey_map_fst]
    rfl
  refine ⟨oldest, rest1 ++ [key1], haccess1, hOne.1, ?_, ?_, ?_, ?_⟩
  · rw [hput]
    show (setVal (delKey c.cache oldest) n v).length = c.cache.length
    rw [setVal_length_absent _ _ _ hfreshd]
    exact delKey_length c.cache oldest hOkeys
  · intro k
    rw [hkeys2]
    simp only [List.mem_append, List.mem_singleton]
    constructor
    · intro h
      rcases h with h | h
      · have := hnd.mem_erase_iff.mp h
        exact Or.inl ⟨this.2, this.1⟩
      · exact Or.inr h
    · intro h
      rcases h with ⟨hk, hne⟩ | rfl
      · exact Or.inl (hnd.mem_erase_iff.mpr ⟨hne, hk⟩)
      · exact Or.inr rfl
  · rw [hkeys2]
    simp only [List.mem_append]
    exact Or.inl (hnd.mem_erase_iff.mpr ⟨fun hc => hOne.1 hc.symm, hkey1⟩)
  · rw [hkeys2]
    simp only [List.mem_append, List.mem_singleton]
    exact Or.inr trivial

theorem lru_eviction_witness :
    (CacheInv ⟨2, [(1, true), (2, true)], [1, 2]⟩ ∧
      (0 : Int) < (2 : Int) ∧
      (1 : Nat) ∈ cacheKeys ⟨2, [(1, true), (2, true)], [1, 2]⟩ ∧
      (3 : Nat) ∉ cacheKeys ⟨2, [(1, true), (2, true)], [1, 2]⟩) ∧
    (∃ oldest rest,
      (((⟨2, [(1, true), (2, true)], [1, 2]⟩ : PrimeCache).get 1).2).access_order =
        oldest :: rest ∧
      oldest ≠ 1 ∧
      ((((⟨2, [(1, true), (2, true)], [1, 2]⟩ : PrimeCache).get 1).2).put 3 true).cache.length =
        ([(1, true), (2, true)] : List (Nat × Bool)).length ∧
      (∀ k, k ∈ cacheKeys ((((⟨2, [(1, true), (2, true)], [1, 2]⟩ : PrimeCache).get 1).2).put 3 true) ↔
        (k ∈ cacheKeys ⟨2, [(1, true), (2, true)], [1, 2]⟩ ∧ k ≠ oldest) ∨ k = 3) ∧
      1 ∈ cacheKeys ((((⟨2, [(1, true), (2, true)], [1, 2]⟩ : PrimeCache).get 1).2).put 3 true) ∧
      3 ∈ cacheKeys ((((⟨2, [(1, true), (2, true)], [1, 2]⟩ : PrimeCache).get 1).2).put 3 true)) :=
  ⟨⟨⟨by decide, List.Perm.refl _, fun _ => by decide, fun h => absurd h (by decide)⟩,
      by decide, by decide, by decide⟩,
    lru_eviction ⟨2, [(1, true), (2, true)], [1, 2]⟩ 1 3 true
      ⟨by decide, List.Perm.refl _, fun _ => by decide, fun h => absurd h (by decide)⟩
      (by decide) (by decide) (by decide) (by decide) (by decide)⟩

/-! ### Stateful primality test (`is_prime_optimized`, lines 174-216)

The engine state carries the pieces `is_prime_optimized` reads and writes:
the cache, the `stats.cache_hits` counter and the composite registry
`code_db` (a Python set of encoded strings, modelled as a duplicate-free
append list).  Wall-clock statistics are not touched by this method. -/

theorem put_zero (c : PrimeCache) (n : Nat) (v : Bool) (h : c.max_size = 0) :
    c.put n v = c := by
  rw [PrimeCache.put, if_pos h]

theorem findVal_put_self (c : PrimeCache) (n : Nat) (v : Bool) (h : ¬ c.max_size = 0) :
    findVal (c.put n v).cache n = some v := by
  rw [PrimeCache.put, if_neg h]
  by_cases hp : (findVal c.cache n).isSome = true
  · rw [if_pos hp]
    exact findVal_setVal_self _ _ _
  · rw [if_neg hp]
    by_cases hfull : c.max_size ≤ (c.cache.length : Int)
    · rw [if_pos hfull]
      rcases c.access_order with _ | ⟨o, r⟩
      · exact findVal_setVal_self _ _ _
      · exact findVal_setVal_self _ _ _
    · rw [if_neg hfull]
      exact findVal_setVal_self _ _ _

structure EngineState where
  cache : PrimeCache
  cache_hits : Nat
  code_db : List (List Char)
deriving DecidableEq

/-- `self.code_db.add(...)` on the Python set of encodings. -/
def addCode (db : List (List Char)) (s : List Char) : List (List Char) :=
  if s ∈ db then db else db ++ [s]

/-- Engine construction (lines 95-110) with the given `cache_size`
configuration and no pre-existing database file: empty cache, zero
statistics, empty composite registry. -/
def EngineState.init (cache_size : Int) : EngineState :=
  { cache := PrimeCache.init cache_size, cache_hits := 0, code_db := [] }

/-- `is_prime_optimized` with its side effects (lines 174-216): fast paths
bypass the cache entirely; a cache hit increments `stats.cache_hits` and
returns the cached verdict; a miss runs the trial division of
`is_prime_pure`, registers the adaptive encoding of composite `n` in
`code_db`, and records the verdict in the cache. -/
def EngineState.is_prime_optimized (st : EngineState) (n : Nat) : Bool × EngineState :=
  if n < 2 then (false, st)
  else if n = 2 then (true, st)
  else if n % 2 = 0 then (false, st)
  else
    match st.cache.get n with
    | (some v, c2) => (v, { st with cache := c2, cache_hits := st.cache_hits + 1 })
    | (none, _) =>
      if trialSmall n (Nat.sqrt n + 1) small_primes then
        (false, { st with cache := st.cache.put n false,
                          code_db := addCode st.code_db (binary_code_en n none) })
      else if trialOdd n (Nat.sqrt n + 1) (Nat.sqrt n + 1) 37 then
        (false, { st with cache := st.cache.put n false,
                          code_db := addCode st.code_db (binary_code_en n none) })
      else (true, { st with cache := st.cache.put n true })

/-- C5 counterexample: on the even input `n = 4` with a freshly constructed
engine, two consecutive `is_prime` calls return the same verdict but the
second is NOT served from the cache: the fast path bypasses the cache, so
the hit counter stays 0 instead of incrementing to 1. -/
theorem second_call_not_cached_counterexample :
    ((((EngineState.init 10000).is_prime_optimized 4).2).is_prime_optimized 4).1 =
      (((EngineState.init 10000)).is_prime_optimized 4).1 ∧
    ¬ ((((EngineState.init 10000).is_prime_optimized 4).2).is_prime_optimized 4).2.cache_hits =
      (((EngineState.init 10000)).is_prime_optimized 4).2.cache_hits + 1 := by
  decide

/-- The output of `is_prime_optimized` on a cache hit (odd `n ≥ 3`). -/
theorem ipo_odd_hit (st : EngineState) (n : Nat) (v : Bool)
    (h1 : ¬ n < 2) (h2 : ¬ n = 2) (h3 : ¬ n % 2 = 0)
    (hf : findVal st.cache.cache n = some v) :
    st.is_prime_optimized n = (v, { st with
      cache := { st.cache with
        access_order := st.cache.access_order.erase n ++ [n] }
      cache_hits := st.cache_hits + 1 }) := by
  rw [EngineState.is_prime_optimized, if_neg h1, if_neg h2, if_neg h3,
    show st.cache.get n = (some v, { st.cache with
      access_order := st.cache.access_order.erase n ++ [n] }) from by
      simp [PrimeCache.get, hf]]

/-- The output of `is_prime_optimized` on a cache miss (odd `n ≥ 3`). -/
theorem ipo_odd_miss (st : EngineState) (n : Nat)
    (h1 : ¬ n < 2) (h2 : ¬ n = 2) (h3 : ¬ n % 2 = 0)
    (hf : findVal st.cache.cache n = none) :
    st.is_prime_optimized n =
      (if trialSmall n (Nat.sqrt n + 1) small_primes = true then
        (false, { st with
          cache := st.cache.put n false
          code_db := addCode st.code_db (binary_code_en n none) })
      else if trialOdd n (Nat.sqrt n + 1) (Nat.sqrt n + 1) 37 = true then
        (false, { st with
          cache := st.cache.put n false
          code_db := addCode st.code_db (binary_code_en n none) })
      else (true, { st with cache := st.cache.put n true })) := by
  rw [EngineState.is_prime_optimized, if_neg h1, if_neg h2, if_neg h3,
    show st.cache.get n = (none, st.cache) from by simp [PrimeCache.get, hf]]

/-- C5 amended: two consecutive `is_prime(n)` calls always return the same
verdict (for every `n` and every starting state); and whenever `n` is odd,
`n ≥ 3`, and the cache capacity is non-zero — i.e. exactly when the code
consults the cache — the second call is served from the cache and increments
the hit counter by one.  Inputs `n < 2`, `n = 2` and even `n` never touch
the cache. -/
theorem is_prime_idempotent_and_cached (st : EngineState) (n : Nat) :
    (((st.is_prime_optimized n).2).is_prime_optimized n).1 = (st.is_prime_optimized n).1 ∧
    (3 ≤ n → n % 2 = 1 → ¬ st.cache.max_size = 0 →
      (((st.is_prime_optimized n).2).is_prime_optimized n).2.cache_hits =
        (st.is_prime_optimized n).2.cache_hits + 1) := by
  by_cases h1 : n < 2
  · rw [EngineState.is_prime_optimized, if_pos h1,
      EngineState.is_prime_optimized, if_pos h1]
    exact ⟨rfl, fun h3 _ _ => absurd h3 (by omega)⟩
  · by_cases h2 : n = 2
    · subst h2
      rw [EngineState.is_prime_optimized, if_neg h1, if_pos rfl,
        EngineState.is_prime_optimized, if_neg h1, if_pos rfl]
      exact ⟨rfl, fun _ hodd _ => absurd hodd (by omega)⟩
    · by_cases h3 : n % 2 = 0
      · rw [EngineState.is_prime_optimized, if_neg h1, if_neg h2, if_pos h3,
          EngineState.is_prime_optimized, if_neg h1, if_neg h2, if_pos h3]
        exact ⟨rfl, fun _ hodd _ => absurd hodd (by omega)⟩
      · rcases hf : findVal st.cache.cache n with _ | v
        · -- first call misses the cache
          rw [ipo_odd_miss st n h1 h2 h3 hf]
          by_cases hmax : st.cache.max_size = 0
          · -- cache disabled: the second call recomputes the same verdict
            have hput : ∀ w : Bool, st.cache.put n w = st.cache :=
              fun w => put_zero st.cache n w hmax
            refine ⟨?_, fun _ _ hmax2 => absurd hmax hmax2⟩
            by_cases hs : trialSmall n (Nat.sqrt n + 1) small_primes = true
            · rw [if_pos hs]
              have hf1 : findVal ((st.cache.put n false)).cache n = none := by
                rw [hput]; exact hf
              rw [ipo_odd_miss _ n h1 h2 h3 hf1, if_pos hs]
            · rw [if_neg hs]
              by_cases ho : trialOdd n (Nat.sqrt n + 1) (Nat.sqrt n + 1) 37 = true
              · rw [if_pos ho]
                have hf1 : findVal ((st.cache.put n false)).cache n = none := by
                  rw [hput]; exact hf
                rw [ipo_odd_miss _ n h1 h2 h3 hf1, if_neg hs, if_pos ho]
              · rw [if_neg ho]
                have hf1 : findVal ((st.cache.put n true)).cache n = none := by
                  rw [hput]; exact hf
                rw [ipo_odd_miss _ n h1 h2 h3 hf1, if_neg hs, if_neg ho]
          · -- cache enabled: the recorded verdict is found by the second call
            constructor
            · by_cases hs : trialSmall n (Nat.sqrt n + 1) small_primes = true
              · rw [if_pos hs]
                rw [ipo_odd_hit _ n false h1 h2 h3 (findVal_put_self st.cache n false hmax)]
              · rw [if_neg hs]
                by_cases ho : trialOdd n (Nat.sqrt n + 1) (Nat.sqrt n + 1) 37 = true
                · rw [if_pos ho]
                  rw [ipo_odd_hit _ n false h1 h2 h3 (findVal_put_self st.cache n false hmax)]
                · rw [if_neg ho]
                  rw [ipo_odd_hit _ n true h1 h2 h3 (findVal_put_self st.cache n true hmax)]
            · intro _ _ _
              by_cases hs : trialSmall n (Nat.sqrt n + 1) small_primes = true
              · rw [if_pos hs]
                rw [ipo_odd_hit _ n false h1 h2 h3 (findVal_put_self st.cache n false hmax)]
              · rw [if_neg hs]
                by_cases ho : trialOdd n (Nat.sqrt n + 1) (Nat.sqrt n + 1) 37 = true
                · rw [if_pos ho]
                  rw [ipo_odd_hit _ n false h1 h2 h3 (findVal_put_self st.cache n false hmax)]
                · rw [if_neg ho]
                  rw [ipo_odd_hit _ n true h1 h2 h3 (findVal_put_self st.cache n true hmax)]
        · -- first call hits the cache; the entry survives the recency touch
          rw [ipo_odd_hit st n v h1 h2 h3 hf]
          have hf1 : findVal ({ st with
              cache := { st.cache with
                access_order := st.cache.access_order.erase n ++ [n] }
              cache_hits := st.cache_hits + 1 } : EngineState).cache.cache n = some v := hf
          constructor
          · rw [ipo_odd_hit ({ st with
              cache := { st.cache with
                access_order := st.cache.access_order.erase n ++ [n] }
              cache_hits := st.cache_hits + 1 }) n v h1 h2 h3 hf1]
          · intro _ _ _
            rw [ipo_odd_hit ({ st with
              cache := { st.cache with
                access_order := st.cache.access_order.erase n ++ [n] }
              cache_hits := st.cache_hits + 1 }) n v h1 h2 h3 hf1]

theorem is_prime_idempotent_and_cached_witness :
    ((((EngineState.init 10000).is_prime_optimized 7).2).is_prime_optimized 7).1 =
      ((EngineState.init 10000).is_prime_optimized 7).1 ∧
    ((((EngineState.init 10000).is_prime_optimized 7).2).is_prime_optimized 7).2.cache_hits =
      ((EngineState.init 10000).is_prime_optimized 7).2.cache_hits + 1 :=
  ⟨(is_prime_idempotent_and_cached (EngineState.init 10000) 7).1,
    (is_prime_idempotent_and_cached (EngineState.init 10000) 7).2
      (by norm_num) (by norm_num) (by decide)⟩

/-! ### Statistics (`PrimeStats`, lines 39-50, and `_update_stats`, lines 274-292)

The gap-related statistics fields: `avg_gap` is a Python float updated with
the exact literals `alpha = 0.1` and `1 - alpha`, modelled as exact
rationals; `min_gap` starts at `float('inf')`, modelled as `none`.  The
wall-clock fields (`total_time`, `primes_per_second`) and the fields owned
by other components (`cache_hits`, `cache_size`, `total_candidates`) are
modelled where the claims need them and omitted here. -/

structure PrimeStats where
  total_primes : Nat
  avg_gap : ℚ
  max_gap : Nat
  min_gap : Option Nat
deriving DecidableEq

/-- The `PrimeStats()` defaults of the dataclass (lines 39-50). -/
def initStats : PrimeStats :=
  { total_primes := 0, avg_gap := 0, max_gap := 0, min_gap := none }

/-- `_update_stats` (lines 274-292) restricted to the gap statistics:
`total_primes` is incremented first; only when `gap > 0` are the extrema
updated and the moving average advanced, with `avg_gap := gap` when the
incremented `total_primes` equals 1 and
`avg_gap := (1 - 0.1) * avg_gap + 0.1 * gap` otherwise. -/
def update_stats (s : PrimeStats) (gap : Nat) : PrimeStats :=
  if 0 < gap then
    { s with
      total_primes := s.total_primes + 1
      max_gap := max s.max_gap gap
      min_gap := some (match s.min_gap with | none => gap | some mn => min mn gap)
      avg_gap := if s.total_primes + 1 = 1 then (gap : ℚ)
                 else (1 - 1 / 10) * s.avg_gap + (1 / 10) * (gap : ℚ) }
  else { s with total_primes := s.total_primes + 1 }

/-- The sequence of gaps passed to `_update_stats` during a run of
`generate_primes start` truncated to `m` emissions. -/
def runGaps (start m : Nat) : List Nat :=
  (generate_primes start m).map (fun r => r.2.2)

/-- The statistics after the first `i` emissions of a run that starts from
freshly initialized statistics. -/
def statsAfter (start m i : Nat) : PrimeStats :=
  ((runGaps start m).take i).foldl update_stats initStats

theorem next_prime_ge (n : Nat) : n ≤ next_prime n := by
  rw [next_prime]
  by_cases h1 : n < 2
  · rw [dif_pos h1]; omega
  · rw [dif_neg h1]
    by_cases h2 : n = 2
    · rw [dif_pos h2]; omega
    · rw [dif_neg h2]
      by_cases h3 : n % 2 = 0
      · rw [dif_pos h3]; omega
      · rw [dif_neg h3]; omega

theorem generate_go_length (fuel n : Nat) (last : Option Nat) (count : Nat) :
    (generate_go fuel n last count).length = fuel := by
  induction fuel generalizing n last count with
  | zero => rfl
  | succ fuel ih =>
    rw [generate_go_succ, List.length_cons, ih]

theorem generate_go_head (fuel n count : Nat) (last : Option Nat) (h : 0 < fuel) :
    (generate_go fuel n last count).get? 0 =
      some (count + 1, next_prime n,
        match last with | none => 0 | some lp => next_prime n - lp) := by
  match fuel, h with
  | fuel + 1, _ => rfl

theorem update_stats_total (s : PrimeStats) (gap : Nat) :
    (update_stats s gap).total_primes = s.total_primes + 1 := by
  rw [update_stats]
  by_cases h : 0 < gap
  · rw [if_pos h]
  · rw [if_neg h]

theorem foldl_update_stats_total (l : List Nat) (s : PrimeStats) :
    (l.foldl update_stats s).total_primes = s.total_primes + l.length := by
  induction l generalizing s with
  | nil => rfl
  | cons g t ih =>
    rw [List.foldl_cons, ih, update_stats_total, List.length_cons]
    omega

theorem statsAfter_total (start m i : Nat) (h : i ≤ m) :
    (statsAfter start m i).total_primes = i := by
  rw [statsAfter, foldl_update_stats_total, List.length_take]
  rw [runGaps, List.length_map, generate_primes, generate_go_length]
  show 0 + min i m = i
  omega

theorem statsAfter_succ (start m i g : Nat) (h : (runGaps start m).get? i = some g) :
    statsAfter start m (i + 1) = update_stats (statsAfter start m i) g := by
  rw [statsAfter, statsAfter, List.take_succ]
  rw [show (runGaps start m)[i]? = some g from by rw [← List.get?_eq_getElem?]; exact h]
  rw [List.foldl_append]
  rfl

/-- C6: in a generator run with freshly initialized statistics, the first
emission has gap 0 and leaves `avg_gap = 0` (equal to that gap) with the
extrema untouched; every later emission has a strictly positive gap `g` and
performs `avg_gap := 0.9 * avg_gap + 0.1 * g` together with the extrema
updates, which therefore happen only on strictly positive gaps. -/
theorem stats_moving_average (start m : Nat) (hm : 1 ≤ m) :
    (runGaps start m).get? 0 = some 0 ∧
    statsAfter start m 1 = { initStats with total_primes := 1 } ∧
    (∀ i, 1 ≤ i → i < m →
      ∃ g, (runGaps start m).get? i = some g ∧ 0 < g ∧
        statsAfter start m (i + 1) = { statsAfter start m i with
          total_primes := (statsAfter start m i).total_primes + 1
          max_gap := max (statsAfter start m i).max_gap g
          min_gap := some (match (statsAfter start m i).min_gap with
            | none => g
            | some mn => min mn g)
          avg_gap := (9 / 10 : ℚ) * (statsAfter start m i).avg_gap +
            (1 / 10 : ℚ) * (g : ℚ) }) := by
  have hg0 : (runGaps start m).get? 0 = some 0 := by
    rw [runGaps, List.get?_map, generate_primes, generate_go_head m start 0 none (by omega)]
    rfl
  refine ⟨hg0, ?_, ?_⟩
  · rw [statsAfter_succ start m 0 0 hg0]
    show update_stats (statsAfter start m 0) 0 = { initStats with total_primes := 1 }
    rw [show statsAfter start m 0 = initStats from rfl, update_stats, if_neg (by omega)]
    rfl
  · intro i h1 h2
    obtain ⟨c, p, gap, p2, hrec1, hrec2, hp2⟩ :=
      generate_go_pair (i - 1) m start none 0 (by omega)
    have hidx : i - 1 + 1 = i := by omega
    rw [hidx] at hrec2
    have hgap : (runGaps start m).get? i = some (p2 - p) := by
      rw [runGaps, List.get?_map, generate_primes, hrec2]
      rfl
    have hpos : 0 < p2 - p := by
      have hge : p + 1 ≤ p2 := by rw [hp2]; exact next_prime_ge (p + 1)
      omega
    refine ⟨p2 - p, hgap, hpos, ?_⟩
    rw [statsAfter_succ start m i (p2 - p) hgap]
    have htot : (statsAfter start m i).total_primes = i := statsAfter_total start m i (by omega)
    rw [update_stats, if_pos hpos, if_neg (by omega)]
    have hnine : (1 - 1 / 10 : ℚ) = 9 / 10 := by norm_num
    rw [hnine]

theorem stats_moving_average_witness :
    1 ≤ 2 ∧
    ((runGaps 1 2).get? 0 = some 0 ∧
      statsAfter 1 2 1 = { initStats with total_primes := 1 } ∧
      (∀ i, 1 ≤ i → i < 2 →
        ∃ g, (runGaps 1 2).get? i = some g ∧ 0 < g ∧
          statsAfter 1 2 (i + 1) = { statsAfter 1 2 i with
            total_primes := (statsAfter 1 2 i).total_primes + 1
            max_gap := max (statsAfter 1 2 i).max_gap g
            min_gap := some (match (statsAfter 1 2 i).min_gap with
              | none => g
              | some mn => min mn g)
            avg_gap := (9 / 10 : ℚ) * (statsAfter 1 2 i).avg_gap +
              (1 / 10 : ℚ) * (g : ℚ) })) :=
  ⟨by norm_num, stats_moving_average 1 2 (by norm_num)⟩

/-! ### Persistence (`_load_database`, lines 112-131)

`_load_database` reads the JSON file inside a `try`/`except Exception`
block: the possible outcomes of the read+parse step are modelled as an
input value — `none` when the file does not exist (the `exists()` guard),
`some none` when reading or parsing raises (the caught exception), and
`some (some d)` for successfully parsed data of either accepted shape
(`DBData.arr` for a bare JSON list, `DBData.obj` for the extended record
with `codes` and an optional `stats` member; the field-by-field `setattr`
restore is modelled as delivering the snapshot whole).  The function is
total: every outcome, including the failure outcomes, yields a state — this
is the model of "the load never raises to its caller". -/

inductive DBData where
  | arr (codes : List (List Char))
  | obj (codes : List (List Char)) (stats : Option PrimeStats)

/-- `_load_database`: the resulting composite registry and restored
statistics snapshot.  Missing file: nothing loaded.  Parse/read failure:
the handler logs and sets `code_db = set()` — empty registry, no
statistics.  A bare list: registry only.  An extended record: registry
plus whatever `stats` it carries. -/
def load_database : Option (Option DBData) → List (List Char) × Option PrimeStats
  | none => ([], none)
  | some none => ([], none)
  | some (some (.arr codes)) => (codes, none)
  | some (some (.obj codes stats)) => (codes, stats)

/-- C7: the loader accepts both persisted encodings (a bare list of
composite encodings, and a structured record with `codes` and `stats`
fields), and on a read or parse failure it returns — never raises — an
empty composite registry and no restored statistics. -/
theorem load_database_tolerant :
    (∀ codes, load_database (some (some (.arr codes))) = (codes, none)) ∧
    (∀ codes stats, load_database (some (some (.obj codes stats))) = (codes, stats)) ∧
    load_database (some none) = ([], none) ∧
    load_database none = ([], none) :=
  ⟨fun _ => rfl, fun _ _ => rfl, rfl, rfl⟩

end PrimeEngine
